import Mathlib

/-!
Verification development for the flattening Glue job
(`src/infra/glue/scripts/Capstone-Amazon-Review-Flatten-Job.py`).

The embedding models:
 - Spark DataFrames as `Frame`: an ordered list of named, typed columns
   (`DType`: scalar, struct, array) together with rows of `Cell` values
   aligned positionally with the column list;
 - `unique_name`, `flatten_structs`, `find_array_column`,
   `sanitize_column_names`, `flatten_df` directly from the source;
 - Spark's `explode_outer` and `withColumnRenamed` (rename every matching
   column, as the Spark implementation maps over all output attributes)
   as the row/column-level operations the source invokes;
 - the parse layer: `_object_pairs_lastwin`, `parse_json_line_safe`,
   `read_json`, with Python's `json.loads` tokenizer abstracted as a
   raw parse tree (`RawJson`) to which the object-pairs hook is applied
   recursively at every object node, exactly as `json.loads` does.

Python's f-string decimal rendering of the collision counter is embedded
as `decRepr` (fuel-based repeated division by 10), which is proved
injective so that the collision-avoidance loop of `unique_name` can be
shown to terminate with a fresh name.
-/

namespace AmazonFlatten

/-- Opaque scalar payload carried by a scalar cell (ints and strings cover
the concrete values appearing in the specification's examples). -/
inductive Atom where
  | int : Int → Atom
  | str : String → Atom
deriving Repr, DecidableEq

/-- Spark data types as seen by the flattening job: scalar kinds are
collapsed into one tag, `struct` carries named children in order,
`arr` carries the element type (mirrors `StructType` / `ArrayType`). -/
inductive DType where
  | scalar : DType
  | struct : List (String × DType) → DType
  | arr : DType → DType
deriving Repr

/-- A cell of a row: null, a scalar atom, a struct value (children in
schema field order), or an array value. -/
inductive Cell where
  | null : Cell
  | atom : Atom → Cell
  | obj : List Cell → Cell
  | elems : List Cell → Cell
deriving Repr

/-- A DataFrame: ordered named, typed columns plus rows whose cells are
aligned positionally with the column list. -/
structure Frame where
  cols : List (String × DType)
  rows : List (List Cell)
deriving Repr

def DType.isStructT : DType → Bool
  | DType.struct _ => true
  | _ => false

def DType.isArrT : DType → Bool
  | DType.arr _ => true
  | _ => false

/-! ## Decimal rendering of the collision counter (Python `f"{base}_{i}"`) -/
/-- Little-endian decimal digits of `n`, with explicit fuel (the fuel
`n` itself always suffices since the quotient strictly decreases). -/
def decDigits : Nat → Nat → List Nat
  | 0, _ => []
  | fuel + 1, n => if n = 0 then [] else n % 10 :: decDigits fuel (n / 10)

/-- Value of a little-endian digit list. -/
def fromDigits : List Nat → Nat
  | [] => 0
  | d :: ds => d + 10 * fromDigits ds

/-- Decimal rendering of a natural number, as Python's `str`/f-string
produces for the collision counter. -/
def decRepr (n : Nat) : String :=
  if n = 0 then "0" else (((decDigits n n).map Nat.digitChar).reverse).asString

/-! ## Collision-safe naming: `unique_name` -/
/-- The i-th collision candidate for a base name (Python `f"{base}_{i}"`). -/
def cand (base : String) (i : Nat) : String := base ++ "_" ++ decRepr i

/-- The `while True` search of `unique_name`, with explicit fuel.  With
fuel `existing.length + 1` the search always finds a fresh candidate
(pigeonhole, see `unique_name_go_success`), so the fallback branch is
never reached. -/
def unique_name_go (base : String) (existing : List String) : Nat → Nat → String × List String
  | _, 0 => (base, existing)
  | i, fuel + 1 =>
    let candidate := cand base i
    if candidate ∈ existing then unique_name_go base existing (i + 1) fuel
    else (candidate, candidate :: existing)

/-- `unique_name` from the source: return a name based on `base` that is
not in `existing` and add it to `existing` (registry returned
functionally instead of mutated in place). -/
def unique_name (base : String) (existing : List String) : String × List String :=
  if base ∈ existing then unique_name_go base existing 1 (existing.length + 1)
  else (base, base :: existing)

/-! ## Flattening utilities -/
/-- Concatenation of a list of lists (used for Spark's per-row explosion). -/
def listFlat {α : Type} : List (List α) → List α
  | [] => []
  | l :: ls => l ++ listFlat ls

/-- Map then concatenate. -/
def concatMap {α β : Type} (f : α → List β) (l : List α) : List β :=
  listFlat (l.map f)

/-- Child extraction `col(name.child)` at child position `k`: a null struct
cell yields a null child, as Spark's field access does. -/
def structChildCell (cell : Cell) (k : Nat) : Cell :=
  match cell with
  | Cell.obj cs => cs.getD k Cell.null
  | _ => Cell.null

/-- Row-level effect of the `select` built by `flatten_structs`: every
struct column contributes one cell per schema child, every other column
passes its cell through unchanged.  (Cell values are independent of the
alias names chosen, so no registry is needed here.) -/
def fsRow : List (String × DType) → List Cell → List Cell
  | [], _ => []
  | (_, t) :: rest, cells =>
    (match t with
     | DType.struct fs => (List.range fs.length).map (structChildCell (cells.headD Cell.null))
     | _ => [cells.headD Cell.null]) ++ fsRow rest cells.tail

/-- Schema-level expansion of one struct column's children inside
`flatten_structs`: each child `c` of struct `p` gets base name `p_c`,
disambiguated through `unique_name` against the shared registry. -/
def fsChildren (p : String) : List (String × DType) → List String → List (String × DType) × List String
  | [], existing => ([], existing)
  | (c, t) :: rest, existing =>
    let r := unique_name (p ++ "_" ++ c) existing
    let rec' := fsChildren p rest r.2
    ((r.1, t) :: rec'.1, rec'.2)

/-- Schema-level effect of `flatten_structs`' field loop: struct columns
are replaced by their children (bases `p_child`, uniquified); a non-struct
column keeps its name if still registered (removing it from the registry),
otherwise it is re-registered under a disambiguated name. -/
def fsCols : List (String × DType) → List String → List (String × DType)
  | [], _ => []
  | (name, DType.struct fs) :: rest, existing =>
    let existing1 := existing.erase name
    let r := fsChildren name fs existing1
    r.1 ++ fsCols rest r.2
  | (name, t) :: rest, existing =>
    if name ∈ existing then (name, t) :: fsCols rest (existing.erase name)
    else
      let r := unique_name name existing
      (r.1, t) :: fsCols rest r.2

/-- `flatten_structs` from the source: expand top-level struct columns
into separate `parent_child` columns, avoiding name collisions; frames
without struct columns are returned unchanged. -/
def flatten_structs (F : Frame) : Frame :=
  if F.cols.any (fun c => c.2.isStructT) then
    { cols := fsCols F.cols (F.cols.map Prod.fst),
      rows := F.rows.map (fsRow F.cols) }
  else F

/-- `find_array_column` from the source: name of the first array column,
if any. -/
def find_array_column_go : List (String × DType) → Option String
  | [] => none
  | (n, t) :: rest => if t.isArrT then some n else find_array_column_go rest

def find_array_column (F : Frame) : Option String :=
  find_array_column_go F.cols

/-- Index of the first column with the given name (the column
`withColumn` / `withColumnRenamed` resolve a name to). -/
def findNameIdx (n : String) : List (String × DType) → Option Nat
  | [] => none
  | c :: rest => if c.1 = n then some 0 else (findNameIdx n rest).map (· + 1)

/-- Row-level `explode_outer` on the cell at position `k`: an array of
length `L ≥ 1` yields `L` copies of the row, one per element; an empty or
null array yields exactly one row with a null in that position. -/
def explode_row (k : Nat) (row : List Cell) : List (List Cell) :=
  match row.getD k Cell.null with
  | Cell.elems (e :: es) => (e :: es).map (fun x => row.set k x)
  | _ => [row.set k Cell.null]

/-- `cur.withColumn(arr_col, explode_outer(col(arr_col)))` from the
source: replace the named column in place by its exploded version (the
column type drops one `arr` layer, rows are expanded by `explode_row`). -/
def withColumn_explode (F : Frame) (n : String) : Frame :=
  match findNameIdx n F.cols with
  | none => F
  | some k =>
    let newT := match (F.cols.getD k ("", DType.scalar)).2 with
      | DType.arr t => t
      | t => t
    { cols := F.cols.set k (n, newT),
      rows := concatMap (explode_row k) F.rows }

/-! ## Final sanitation pass -/
/-- `c.replace(".", "_")` on a column name (single-character pattern, so a
character-wise map is exact). -/
def replaceDot (s : String) : String :=
  (s.data.map (fun ch => if ch = '.' then '_' else ch)).asString

/-- Spark's `withColumnRenamed(old, new)`: a no-op when no column has the
old name; otherwise every column whose name matches is renamed (the Spark
implementation maps the rename over all output attributes). -/
def withColumnRenamed (F : Frame) (oldName newName : String) : Frame :=
  { F with cols := F.cols.map (fun c => if c.1 = oldName then (newName, c.2) else c) }

/-- The `(orig, clean)` pair list built by `sanitize_column_names`: dots
replaced by underscores, duplicates disambiguated via `unique_name`
against a registry that starts empty. -/
def sanitizePairs : List String → List String → List (String × String)
  | [], _ => []
  | c :: rest, existing =>
    let clean := replaceDot c
    if clean ∈ existing then
      let r := unique_name clean existing
      (c, r.1) :: sanitizePairs rest r.2
    else
      (c, clean) :: sanitizePairs rest (clean :: existing)

/-- `sanitize_column_names` from the source: compute the rename pairs,
then apply `withColumnRenamed` sequentially for every pair whose name
actually changes. -/
def sanitize_column_names (F : Frame) : Frame :=
  (sanitizePairs (F.cols.map Prod.fst) []).foldl
    (fun out p => if p.1 ≠ p.2 then withColumnRenamed out p.1 p.2 else out) F

/-! ## The flattening loop -/
def hasStructF (F : Frame) : Bool :=
  F.cols.any (fun c => c.2.isStructT)

/-- Terminal condition of the loop: no struct column and no array column. -/
def isFlatF (F : Frame) : Bool :=
  !hasStructF F && (find_array_column F).isNone

def hasCompositeF (F : Frame) : Bool :=
  hasStructF F || (find_array_column F).isSome

/-- One iteration body of `flatten_df`'s loop: struct inlining takes
priority; otherwise the first array column is exploded; a flat frame
passes through unchanged. -/
def flatten_body (cur : Frame) : Frame :=
  if hasStructF cur then flatten_structs cur
  else
    match find_array_column cur with
    | some n => withColumn_explode cur n
    | none => cur

/-- The `while it < max_iters` loop of `flatten_df`, by remaining fuel.
Returns the resulting frame together with the exhaustion-warning flag
(`it >= max_iters` after the loop): the flag is `false` exactly when the
loop breaks on a flat frame with at least one permitted iteration left. -/
def flatten_go : Frame → Nat → Frame × Bool
  | cur, 0 => (cur, true)
  | cur, fuel + 1 =>
    if isFlatF cur then (cur, decide (fuel = 0))
    else flatten_go (flatten_body cur) fuel

/-- `flatten_df` from the source: run the loop up to `max_iters`
iterations, then apply the final sanitize pass; the Boolean is the
max-iterations warning. -/
def flatten_df (df : Frame) (max_iters : Nat) : Frame × Bool :=
  let r := flatten_go df max_iters
  (sanitize_column_names r.1, r.2)

/-- `flatten_body` applied `n` times (the frame after `n` loop
iterations, ignoring the iteration cap). -/
def applyN : Frame → Nat → Frame
  | F, 0 => F
  | F, n + 1 => applyN (flatten_body F) n

/-! ## Schema measures -/
mutual
/-- Number of composite (struct or array) nodes in a type tree. -/
def dnodes : DType → Nat
  | DType.scalar => 0
  | DType.arr t => 1 + dnodes t
  | DType.struct fs => 1 + dnodesL fs

def dnodesL : List (String × DType) → Nat
  | [] => 0
  | f :: rest => dnodes f.2 + dnodesL rest
end

mutual
/-- Maximum struct-nesting depth of a type tree; array layers are
transparent (a struct below an array still counts). -/
def dStructDepth : DType → Nat
  | DType.scalar => 0
  | DType.arr t => dStructDepth t
  | DType.struct fs => 1 + dStructDepthL fs

def dStructDepthL : List (String × DType) → Nat
  | [] => 0
  | f :: rest => max (dStructDepth f.2) (dStructDepthL rest)
end

mutual
/-- Total number of array nodes in a type tree. -/
def dArrCount : DType → Nat
  | DType.scalar => 0
  | DType.arr t => 1 + dArrCount t
  | DType.struct fs => dArrCountL fs

def dArrCountL : List (String × DType) → Nat
  | [] => 0
  | f :: rest => dArrCount f.2 + dArrCountL rest
end

/-- Total composite-node count of a frame's schema. -/
def nodesF (F : Frame) : Nat :=
  (F.cols.map (fun c => dnodes c.2)).sum

/-- Maximum struct depth over a frame's columns. -/
def maxStructDepthF (F : Frame) : Nat :=
  (F.cols.map (fun c => dStructDepth c.2)).foldr max 0

/-- Total array-node count over a frame's columns. -/
def arrayCountF (F : Frame) : Nat :=
  (F.cols.map (fun c => dArrCount c.2)).sum

/-! ## Robust JSON-line parsing -/
/-- Raw parse tree of one JSON text, before the `object_pairs_hook` is
applied: objects carry their key/value pairs in textual order, with
duplicates still present.  This abstracts Python's `json.loads`
tokenizer, which is external library code. -/
inductive RawJson where
  | null : RawJson
  | bool : Bool → RawJson
  | num : Int → RawJson
  | str : String → RawJson
  | arr : List RawJson → RawJson
  | obj : List (String × RawJson) → RawJson
deriving Repr

/-- Parsed JSON value after duplicate-key resolution. -/
inductive Json where
  | null : Json
  | bool : Bool → Json
  | num : Int → Json
  | str : String → Json
  | arr : List Json → Json
  | obj : List (String × Json) → Json
deriving Repr

/-- One `d[k] = v` step on a Python dict rendered as an ordered
association list: an existing key keeps its original position but takes
the new value; a new key is appended. -/
def dictInsert (d : List (String × Json)) (k : String) (v : Json) : List (String × Json) :=
  if d.any (fun p => p.1 = k) then d.map (fun p => if p.1 = k then (k, v) else p)
  else d ++ [(k, v)]

/-- `_object_pairs_lastwin` from the source: fold the pairs into a dict,
so the last occurrence of each key wins. -/
def object_pairs_lastwin (pairs : List (String × Json)) : List (String × Json) :=
  pairs.foldl (fun d p => dictInsert d p.1 p.2) []

mutual
/-- `json.loads(s, object_pairs_hook=_object_pairs_lastwin)`: the hook is
applied to every object node, recursively, bottom-up. -/
def applyHook : RawJson → Json
  | RawJson.null => Json.null
  | RawJson.bool b => Json.bool b
  | RawJson.num n => Json.num n
  | RawJson.str s => Json.str s
  | RawJson.arr xs => Json.arr (applyHookList xs)
  | RawJson.obj ps => Json.obj (object_pairs_lastwin (applyHookPairs ps))

def applyHookList : List RawJson → List Json
  | [] => []
  | x :: xs => applyHook x :: applyHookList xs

def applyHookPairs : List (String × RawJson) → List (String × Json)
  | [] => []
  | p :: ps => (p.1, applyHook p.2) :: applyHookPairs ps
end

/-- One input line, classified by what `line.strip()` and `json.loads`
do with it: whitespace-only (strips to empty), malformed (`json.loads`
raises), or valid with raw parse tree `r`.  The text itself is external;
only these three outcomes matter to the job. -/
inductive LineKind where
  | blank : LineKind
  | malformed : LineKind
  | valid : RawJson → LineKind
deriving Repr

/-- `parse_json_line_safe` from the source: strip, return `none` for an
empty result, parse with the last-win hook, and return `none` instead of
propagating any parse error. -/
def parse_json_line_safe : LineKind → Option Json
  | LineKind.blank => none
  | LineKind.malformed => none
  | LineKind.valid r => some (applyHook r)

def nonBlank : LineKind → Bool
  | LineKind.blank => false
  | _ => true

def isValidL : LineKind → Bool
  | LineKind.valid _ => true
  | _ => false

def isMalformedL : LineKind → Bool
  | LineKind.malformed => true
  | _ => false

/-- The lines surviving `read_json`'s strip-and-drop-empty stage. -/
def keptLines (lines : List LineKind) : List LineKind :=
  lines.filter nonBlank

/-- The successfully parsed records (`parsed_ok`). -/
def okRecords (lines : List LineKind) : List Json :=
  (keptLines lines).filterMap parse_json_line_safe

def okCount (lines : List LineKind) : Nat :=
  (okRecords lines).length

/-- The failed-line count (`parsed_bad.count()`). -/
def badCount (lines : List LineKind) : Nat :=
  ((keptLines lines).filter (fun l => (parse_json_line_safe l).isNone)).length

/-- `total` in `read_json`: lines surviving the empty-line filter. -/
def totalCount (lines : List LineKind) : Nat :=
  (keptLines lines).length

/-- Modelled from the spec: Spark's `createDataFrame` (the external
record-collection builder) fails when it cannot infer a schema, which on
this code path happens exactly for an empty record collection; on
non-empty input it builds the frame.  The frame itself is represented by
its record list. -/
def createDataFrameE (records : List Json) : Except String (List Json) :=
  if records.isEmpty then Except.error "can not infer schema" else Except.ok records

/-- `read_json` from the source: count parse outcomes; with zero
successes the early-return branch still calls
`spark.createDataFrame([], schema=None)` — an empty record list with no
schema, hence `createDataFrameE []` — and otherwise builds the frame
from the parsed records, falling back to a 1000-record sample if the
full build fails (the empty-sample branch of the fallback makes the same
empty no-schema call). -/
def read_json (lines : List LineKind) : Except String (List Json) :=
  let ok := okRecords lines
  if ok.length = 0 then createDataFrameE []
  else
    match createDataFrameE ok with
    | Except.ok df => Except.ok df
    | Except.error _ =>
      let sample := ok.take 1000
      if sample.isEmpty then createDataFrameE [] else createDataFrameE sample

/-! ## Claim C4: duplicate keys resolve last-write-wins -/
/-- Lookup in an ordered association list (first match). -/
def lookupStr (k : String) : List (String × Json) → Option Json
  | [] => none
  | p :: ps => if p.1 = k then some p.2 else lookupStr k ps

/-- Value of the last occurrence of a key in a raw pair list. -/
def lastValue (k : String) : List (String × Json) → Option Json
  | [] => none
  | p :: ps =>
    match lastValue k ps with
    | some v => some v
    | none => if p.1 = k then some p.2 else none

/-- Keys of a dict association list. -/
def dictKeys (d : List (String × Json)) : List String := d.map Prod.fst

/-- Nodup check on a key list. -/
def keysFresh : List String → Bool
  | [] => true
  | s :: rest => !(decide (s ∈ rest)) && keysFresh rest

mutual
/-- Every object anywhere inside the value has pairwise-distinct keys. -/
def noDupKeysB : Json → Bool
  | Json.null => true
  | Json.bool _ => true
  | Json.num _ => true
  | Json.str _ => true
  | Json.arr xs => noDupKeysListB xs
  | Json.obj ps => keysFresh (ps.map Prod.fst) && noDupKeysPairsB ps

def noDupKeysListB : List Json → Bool
  | [] => true
  | x :: xs => noDupKeysB x && noDupKeysListB xs

def noDupKeysPairsB : List (String × Json) → Bool
  | [] => true
  | p :: ps => noDupKeysB p.2 && noDupKeysPairsB ps
end

/-! ## Claim C3: struct inlining -/
/-- The base names `p_ci` a struct column generates (empty for
non-struct columns). -/
def structBases (c : String × DType) : List String :=
  match c.2 with
  | DType.struct fs => fs.map (fun f => c.1 ++ "_" ++ f.1)
  | _ => []

/-- Collision-free expansion of one column: a struct column becomes one
column `p_ci` per child, any other column stays as it is. -/
def structExpandCols (c : String × DType) : List (String × DType) :=
  match c.2 with
  | DType.struct fs => fs.map (fun f => (c.1 ++ "_" ++ f.1, f.2))
  | _ => [c]

/-- The spec's struct-inlining example frame, as `createDataFrame` builds
it from the single record with field a holding the object b:1, c:2. -/
def exFrameC3 : Frame :=
  { cols := [("a", DType.struct [("b", DType.scalar), ("c", DType.scalar)])],
    rows := [[Cell.obj [Cell.atom (Atom.int 1), Cell.atom (Atom.int 2)]]] }

/-! ## Claim C5: sanitize-and-uniquify collision resolution -/
/-- Two distinct scalar columns named `x.y` and `x_y`, in that order. -/
def exFrameC5 : Frame :=
  { cols := [("x.y", DType.scalar), ("x_y", DType.scalar)],
    rows := [[Cell.atom (Atom.int 1), Cell.atom (Atom.int 2)]] }

/-- The same two columns in the opposite order. -/
def exFrameC5rev : Frame :=
  { cols := [("x_y", DType.scalar), ("x.y", DType.scalar)],
    rows := [[Cell.atom (Atom.int 2), Cell.atom (Atom.int 1)]] }

/-- The spec's array-explosion example frame: id = 5, tags = [x, y]. -/
def exFrameC2ex : Frame :=
  { cols := [("id", DType.scalar), ("tags", DType.arr DType.scalar)],
    rows := [[Cell.atom (Atom.int 5),
              Cell.elems [Cell.atom (Atom.str "x"), Cell.atom (Atom.str "y")]]] }

/-- A frame whose flattening needs two iterations: a struct wrapping an
array. -/
def exFrameC7deep : Frame :=
  { cols := [("a", DType.struct [("b", DType.arr DType.scalar)])],
    rows := [[Cell.obj [Cell.elems [Cell.atom (Atom.int 1)]]]] }

/-- A frame that is already flat. -/
def exFrameC7 : Frame :=
  { cols := [("id", DType.scalar)], rows := [[Cell.atom (Atom.int 5)]] }

/-! ## Claim C1: struct inlining takes precedence over array explosion -/
/-- Types contributed by one column under struct inlining: the children
types for a struct column, the column's own type otherwise. -/
def structExpandTypes (c : String × DType) : List DType :=
  match c.2 with
  | DType.struct fs => fs.map Prod.snd
  | t => [t]

/-- A frame holding both a struct column and an array column. -/
def exFrameC1a : Frame :=
  { cols := [("s", DType.struct [("c", DType.scalar)]), ("t", DType.arr DType.scalar)],
    rows := [[Cell.obj [Cell.atom (Atom.int 1)], Cell.elems [Cell.atom (Atom.int 2)]]] }

/-- A struct-free frame with two array columns. -/
def exFrameC1b : Frame :=
  { cols := [("t1", DType.arr DType.scalar), ("t2", DType.arr DType.scalar)],
    rows := [[Cell.elems [Cell.atom (Atom.int 1)], Cell.elems [Cell.atom (Atom.int 2)]]] }

/-! ## Claim C6: termination bound -/
/-- Sum of composite-node counts over a column list. -/
def sumNodes (l : List (String × DType)) : Nat :=
  (l.map (fun c => dnodes c.2)).sum

/-- Number of top-level struct columns. -/
def structColCount (cols : List (String × DType)) : Nat :=
  cols.countP (fun c => c.2.isStructT)

/-- A two-column frame on which the claimed `D + A` bound fails: `u` is
an array of structs, `v` a struct holding an array of structs. -/
def exFrameC6 : Frame :=
  { cols := [("u", DType.arr (DType.struct [("c", DType.scalar)])),
             ("v", DType.struct [("w", DType.arr (DType.struct [("h", DType.scalar)]))])],
    rows := [[Cell.elems [Cell.obj [Cell.atom (Atom.int 1)]],
              Cell.obj [Cell.elems [Cell.obj [Cell.atom (Atom.int 2)]]]]] }

/-- A frame with one struct node and one array node (`S + A = 2`). -/
def exFrameC6w : Frame :=
  { cols := [("a", DType.struct [("b", DType.scalar)]), ("t", DType.arr DType.scalar)],
    rows := [[Cell.obj [Cell.atom (Atom.int 1)], Cell.elems [Cell.atom (Atom.int 2)]]] }

theorem fromDigits_decDigits : ∀ fuel n, n ≤ fuel → fromDigits (decDigits fuel n) = n := by
  intro fuel
  induction fuel with
  | zero => intro n hn; interval_cases n; rfl
  | succ f ih =>
    intro n hn
    by_cases h0 : n = 0
    · subst h0; simp [decDigits, fromDigits]
    · have hdiv : n / 10 ≤ f := by
        have : n / 10 < n := Nat.div_lt_self (Nat.pos_of_ne_zero h0) (by norm_num)
        omega
      simp only [decDigits, h0, if_false, fromDigits]
      rw [ih _ hdiv]
      exact Nat.mod_add_div n 10

theorem decDigits_lt_ten : ∀ fuel n d, d ∈ decDigits fuel n → d < 10 := by
  intro fuel
  induction fuel with
  | zero => intro n d hd; simp [decDigits] at hd
  | succ f ih =>
    intro n d hd
    by_cases h0 : n = 0
    · subst h0; simp [decDigits] at hd
    · simp only [decDigits, h0, if_false, List.mem_cons] at hd
      rcases hd with h | h
      · subst h; exact Nat.mod_lt _ (by norm_num)
      · exact ih _ _ h

theorem digitChar_inj_lt : ∀ a < 10, ∀ b < 10, Nat.digitChar a = Nat.digitChar b → a = b := by
  decide

theorem map_digitChar_inj : ∀ (xs ys : List Nat), (∀ d ∈ xs, d < 10) → (∀ d ∈ ys, d < 10) →
    xs.map Nat.digitChar = ys.map Nat.digitChar → xs = ys := by
  intro xs
  induction xs with
  | nil => intro ys _ _ h; cases ys <;> simp_all
  | cons x xs ih =>
    intro ys hx hy h
    cases ys with
    | nil => simp at h
    | cons y ys =>
      simp only [List.map_cons, List.cons.injEq] at h
      have hxy : x = y :=
        digitChar_inj_lt x (hx x (by simp)) y (hy y (by simp)) h.1
      have := ih ys (fun d hd => hx d (by simp [hd])) (fun d hd => hy d (by simp [hd])) h.2
      simp [hxy, this]

theorem decRepr_inj : Function.Injective decRepr := by
  intro m n h
  unfold decRepr at h
  by_cases hm : m = 0 <;> by_cases hn : n = 0
  · omega
  · exfalso
    simp only [hm, if_true, hn, if_false] at h
    have hd : (("0" : String)).data = (((decDigits n n).map Nat.digitChar).reverse).asString.data :=
      congrArg String.data h
    have : (['0'] : List Char) = ((decDigits n n).map Nat.digitChar).reverse := hd
    have h2 : ((decDigits n n).map Nat.digitChar) = (['0'] : List Char).reverse := by
      rw [this]; simp
    have h3 : decDigits n n = [0] := by
      apply map_digitChar_inj _ _ (fun d hd => decDigits_lt_ten _ _ _ hd)
        (by intro d hd; simp at hd; omega)
      simpa using h2
    have h4 := fromDigits_decDigits n n (le_refl n)
    rw [h3] at h4
    simp [fromDigits] at h4
    omega
  · exfalso
    simp only [hm, if_false, hn, if_true] at h
    have hd : (((decDigits m m).map Nat.digitChar).reverse).asString.data = (("0" : String)).data :=
      congrArg String.data h
    have : ((decDigits m m).map Nat.digitChar).reverse = (['0'] : List Char) := hd
    have h2 : ((decDigits m m).map Nat.digitChar) = (['0'] : List Char).reverse := by
      rw [← this]; simp
    have h3 : decDigits m m = [0] := by
      apply map_digitChar_inj _ _ (fun d hd => decDigits_lt_ten _ _ _ hd)
        (by intro d hd; simp at hd; omega)
      simpa using h2
    have h4 := fromDigits_decDigits m m (le_refl m)
    rw [h3] at h4
    simp [fromDigits] at h4
    omega
  · simp only [hm, hn, if_false] at h
    have hd := congrArg String.data h
    have hdl : ((decDigits m m).map Nat.digitChar).reverse = ((decDigits n n).map Nat.digitChar).reverse := hd
    have h2 := List.reverse_injective hdl
    have h3 : decDigits m m = decDigits n n :=
      map_digitChar_inj _ _ (fun d hd => decDigits_lt_ten _ _ _ hd)
        (fun d hd => decDigits_lt_ten _ _ _ hd) h2
    have h4 := fromDigits_decDigits m m (le_refl m)
    have h5 := fromDigits_decDigits n n (le_refl n)
    rw [h3] at h4
    omega

theorem cand_inj (base : String) : Function.Injective (cand base) := by
  intro a b h
  unfold cand at h
  have hd : (base ++ "_").data ++ (decRepr a).data
      = (base ++ "_").data ++ (decRepr b).data := congrArg String.data h
  have h2 : (decRepr a).data = (decRepr b).data := List.append_cancel_left hd
  have h3 : decRepr a = decRepr b := by
    cases ha : decRepr a; cases hb : decRepr b; simp_all
  exact decRepr_inj h3

theorem unique_name_go_of_witness (base : String) (existing : List String) :
    ∀ fuel i, (∃ j, i ≤ j ∧ j < i + fuel ∧ cand base j ∉ existing) →
    ∃ m, i ≤ m ∧ cand base m ∉ existing ∧ (∀ j, i ≤ j → j < m → cand base j ∈ existing) ∧
      unique_name_go base existing i fuel = (cand base m, cand base m :: existing) := by
  intro fuel
  induction fuel with
  | zero =>
    intro i h
    exfalso; obtain ⟨j, hj1, hj2, _⟩ := h; omega
  | succ f ih =>
    intro i h
    by_cases hi : cand base i ∈ existing
    · obtain ⟨j, hj1, hj2, hj3⟩ := h
      have hji : j ≠ i := fun he => hj3 (he ▸ hi)
      obtain ⟨m, hm1, hm2, hm3, hm4⟩ := ih (i + 1) ⟨j, by omega, by omega, hj3⟩
      refine ⟨m, by omega, hm2, ?_, ?_⟩
      · intro j' h1 h2
        rcases Nat.eq_or_lt_of_le h1 with he | hl
        · exact he ▸ hi
        · exact hm3 j' hl h2
      · simpa [unique_name_go, hi] using hm4
    · exact ⟨i, le_refl i, hi, fun j h1 h2 => absurd (by omega : i < i) (by omega),
        by simp [unique_name_go, hi]⟩

theorem unique_name_go_success (base : String) (existing : List String) (i : Nat) :
    ∃ j, i ≤ j ∧ j < i + (existing.length + 1) ∧ cand base j ∉ existing := by
  by_contra hall
  push_neg at hall
  set L := (List.range (existing.length + 1)).map (fun t => cand base (i + t)) with hL
  have hlen : L.length = existing.length + 1 := by simp [hL]
  have hnd : L.Nodup := by
    apply List.Nodup.map
    · intro a b hab
      have := cand_inj base hab
      omega
    · exact List.nodup_range _
  have hsub : ∀ x ∈ L, x ∈ existing := by
    intro x hx
    simp only [hL, List.mem_map, List.mem_range] at hx
    obtain ⟨t, ht, rfl⟩ := hx
    exact hall (i + t) (by omega) (by omega)
  have hsubF : L.toFinset ⊆ existing.toFinset := by
    intro x hx
    rw [List.mem_toFinset] at hx ⊢
    exact hsub x hx
  have h1 : L.toFinset.card = existing.length + 1 := by
    rw [List.toFinset_card_of_nodup hnd, hlen]
  have h2 : existing.toFinset.card ≤ existing.length := existing.toFinset_card_le
  have h3 := Finset.card_le_card hsubF
  omega

theorem unique_name_of_not_mem {base : String} {existing : List String}
    (h : base ∉ existing) : unique_name base existing = (base, base :: existing) := by
  simp [unique_name, h]

theorem unique_name_of_mem {base : String} {existing : List String} (h : base ∈ existing) :
    ∃ i, 1 ≤ i ∧ cand base i ∉ existing ∧ (∀ j, 1 ≤ j → j < i → cand base j ∈ existing) ∧
      unique_name base existing = (cand base i, cand base i :: existing) := by
  obtain ⟨m, hm1, hm2, hm3, hm4⟩ := unique_name_go_of_witness base existing
    (existing.length + 1) 1 (unique_name_go_success base existing 1)
  exact ⟨m, hm1, hm2, hm3, by simp [unique_name, h, hm4]⟩

theorem unique_name_result_not_mem (base : String) (existing : List String) :
    (unique_name base existing).1 ∉ existing := by
  by_cases h : base ∈ existing
  · obtain ⟨i, _, hi2, _, hi4⟩ := unique_name_of_mem h
    rw [hi4]
    exact hi2
  · rw [unique_name_of_not_mem h]
    exact h

theorem unique_name_registry (base : String) (existing : List String) :
    ∀ x, x ∈ (unique_name base existing).2 ↔ x = (unique_name base existing).1 ∨ x ∈ existing := by
  intro x
  by_cases h : base ∈ existing
  · obtain ⟨i, _, _, _, hi4⟩ := unique_name_of_mem h
    rw [hi4]
    simp
  · rw [unique_name_of_not_mem h]
    simp

/-! ## Claim C8: `unique_name` contract -/
/-- Claim C8: for every candidate name `c` and registry `R`, `unique_name`
returns `c` unchanged when `c` is not registered, and otherwise the first
fresh `c_i` (smallest positive `i`); in all cases the returned name was
not in `R` as passed in, and the updated registry holds exactly the
returned name in addition to `R`'s prior contents. -/
theorem c8_unique_name_contract (c : String) (R : List String) :
    ((unique_name c R).1 ∉ R) ∧
    (c ∉ R → (unique_name c R).1 = c) ∧
    (c ∈ R → ∃ i, 1 ≤ i ∧ (unique_name c R).1 = cand c i ∧
      (∀ j, 1 ≤ j → j < i → cand c j ∈ R)) ∧
    (∀ x, x ∈ (unique_name c R).2 ↔ x = (unique_name c R).1 ∨ x ∈ R) := by
  refine ⟨unique_name_result_not_mem c R, ?_, ?_, unique_name_registry c R⟩
  · intro h
    rw [unique_name_of_not_mem h]
  · intro h
    obtain ⟨i, hi1, _, hi3, hi4⟩ := unique_name_of_mem h
    exact ⟨i, hi1, by rw [hi4], hi3⟩

/-- Witness for C8 at a concrete registered candidate: `x_y` against
registry containing `x_y` yields `x_y_1`. -/
theorem c8_unique_name_contract_witness :
    ("x_y" ∈ (["x_y"] : List String)) ∧
    (unique_name "x_y" ["x_y"]).1 ∉ (["x_y"] : List String) ∧
    (unique_name "x_y" ["x_y"]).1 = "x_y_1" := by
  refine ⟨by decide, (c8_unique_name_contract "x_y" ["x_y"]).1, by decide⟩

/-! ## Counting lemmas for the parse stage -/
theorem okCount_eq_valid (lines : List LineKind) :
    okCount lines = (lines.filter isValidL).length := by
  induction lines with
  | nil => rfl
  | cons l rest ih =>
    cases l <;>
      simpa [okCount, okRecords, keptLines, nonBlank, isValidL, parse_json_line_safe,
        List.filter_cons] using ih

theorem badCount_eq_malformed (lines : List LineKind) :
    badCount lines = (lines.filter isMalformedL).length := by
  induction lines with
  | nil => rfl
  | cons l rest ih =>
    cases l <;>
      simpa [badCount, keptLines, nonBlank, isMalformedL, parse_json_line_safe,
        List.filter_cons] using ih

theorem totalCount_eq (lines : List LineKind) :
    totalCount lines = (lines.filter isValidL).length + (lines.filter isMalformedL).length := by
  induction lines with
  | nil => rfl
  | cons l rest ih =>
    cases l <;>
      simp [totalCount, keptLines, nonBlank, isValidL, isMalformedL, List.filter_cons] at ih ⊢ <;>
      omega

/-! ## Claim C9: malformed-line tolerance -/
/-- Claim C9: a batch with one malformed line among otherwise valid and
blank lines yields exactly one record per valid line, a recorded failure
count of 1, a total count that excludes blank lines, and per-line parsing
is total (`none` for blank or malformed, `some` for valid) — it never
raises. -/
theorem c9_malformed_tolerance (lines : List LineKind)
    (h : (lines.filter isMalformedL).length = 1) :
    okCount lines = (lines.filter isValidL).length ∧
    badCount lines = 1 ∧
    totalCount lines = (lines.filter isValidL).length + 1 ∧
    (∀ l, (parse_json_line_safe l).isSome = isValidL l) := by
  refine ⟨okCount_eq_valid lines, ?_, ?_, ?_⟩
  · rw [badCount_eq_malformed, h]
  · rw [totalCount_eq, h]
  · intro l; cases l <;> rfl

/-- Witness for C9: two valid lines, one malformed line, one blank line
give 2 records, failure count 1, total 3. -/
theorem c9_malformed_tolerance_witness :
    ((([LineKind.valid (RawJson.num 1), LineKind.malformed, LineKind.blank,
        LineKind.valid (RawJson.num 2)] : List LineKind).filter isMalformedL).length = 1) ∧
    okCount [LineKind.valid (RawJson.num 1), LineKind.malformed, LineKind.blank,
      LineKind.valid (RawJson.num 2)] = 2 ∧
    badCount [LineKind.valid (RawJson.num 1), LineKind.malformed, LineKind.blank,
      LineKind.valid (RawJson.num 2)] = 1 ∧
    totalCount [LineKind.valid (RawJson.num 1), LineKind.malformed, LineKind.blank,
      LineKind.valid (RawJson.num 2)] = 3 := by
  have h := c9_malformed_tolerance
    [LineKind.valid (RawJson.num 1), LineKind.malformed, LineKind.blank,
      LineKind.valid (RawJson.num 2)] rfl
  exact ⟨rfl, h.1, h.2.1, h.2.2.1⟩

/-! ## Claim C10: empty batch -/
/-- Claim C10 fails on the code: the zero-success early return itself
builds the result with `createDataFrame` on an empty record list and no
schema, which fails because no schema can be inferred from an empty
dataset — so a batch in which zero lines parse successfully makes
`read_json` raise instead of returning an empty frame.  The warning log
and the dedicated early return show the intent was a non-fatal empty
result, which the call does not deliver. -/
theorem c10_zero_success_raises :
    okCount [LineKind.malformed, LineKind.blank] = 0 ∧
    read_json [LineKind.malformed, LineKind.blank] =
      Except.error "can not infer schema" ∧
    createDataFrameE [] = Except.error "can not infer schema" :=
  ⟨rfl, rfl, rfl⟩

theorem lookupStr_map_replace (k : String) (v : Json) :
    ∀ d : List (String × Json), (∃ p ∈ d, p.1 = k) →
    lookupStr k (d.map (fun p => if p.1 = k then (k, v) else p)) = some v := by
  intro d
  induction d with
  | nil => intro h; simp at h
  | cons q qs ih =>
    intro h
    by_cases hq : q.1 = k
    · simp [lookupStr, hq]
    · obtain ⟨p, hp, hpk⟩ := h
      rcases List.mem_cons.mp hp with rfl | hp'
      · exact absurd hpk hq
      · simp only [List.map_cons, if_neg hq, lookupStr, hq, if_false]
        exact ih ⟨p, hp', hpk⟩

theorem lookupStr_map_replace_other (k k' : String) (v : Json) (hne : k' ≠ k) :
    ∀ d : List (String × Json),
    lookupStr k (d.map (fun p => if p.1 = k' then (k', v) else p)) = lookupStr k d := by
  intro d
  induction d with
  | nil => rfl
  | cons q qs ih =>
    by_cases hq : q.1 = k'
    · have hqk : ¬(q.1 = k) := by rw [hq]; exact hne
      simp [lookupStr, hq, hqk, hne, ih]
    · by_cases hqk : q.1 = k
      · simp [lookupStr, hq, hqk, Ne.symm hne]
      · simp [lookupStr, hq, hqk, ih]

theorem lookupStr_append_fresh (k : String) (l : List (String × Json)) :
    ∀ d : List (String × Json), (∀ p ∈ d, p.1 ≠ k) →
    lookupStr k (d ++ l) = lookupStr k l := by
  intro d
  induction d with
  | nil => intro _; rfl
  | cons q qs ih =>
    intro h
    have hq : ¬(q.1 = k) := h q (by simp)
    simp only [List.cons_append, lookupStr, hq, if_false]
    exact ih (fun p hp => h p (by simp [hp]))

theorem lookupStr_dictInsert_self (d : List (String × Json)) (k : String) (v : Json) :
    lookupStr k (dictInsert d k v) = some v := by
  by_cases h : (d.any fun p => decide (p.1 = k)) = true
  · have hex : ∃ p ∈ d, p.1 = k := by simpa using h
    unfold dictInsert
    rw [if_pos h]
    exact lookupStr_map_replace k v d hex
  · have hall : ∀ p ∈ d, p.1 ≠ k := by
      intro p hp hpk
      exact h (List.any_eq_true.mpr ⟨p, hp, by simp [hpk]⟩)
    unfold dictInsert
    rw [if_neg h, lookupStr_append_fresh k _ d hall]
    simp [lookupStr]

theorem lookupStr_dictInsert_other (d : List (String × Json)) (k k' : String) (v : Json)
    (hne : k' ≠ k) : lookupStr k (dictInsert d k' v) = lookupStr k d := by
  by_cases h : (d.any fun p => decide (p.1 = k')) = true
  · unfold dictInsert
    rw [if_pos h]
    exact lookupStr_map_replace_other k k' v hne d
  · unfold dictInsert
    rw [if_neg h]
    induction d with
    | nil => simp [lookupStr, hne]
    | cons q qs ih =>
      by_cases hqk : q.1 = k
      · simp [lookupStr, hqk]
      · simp only [List.cons_append, lookupStr, hqk, if_false]
        apply ih
        intro hany
        exact h (by simp only [List.any_cons, hany, Bool.or_true])

theorem lookupStr_foldl_dictInsert (pairs : List (String × Json)) :
    ∀ (d : List (String × Json)) (k : String),
    lookupStr k (pairs.foldl (fun d p => dictInsert d p.1 p.2) d) =
      match lastValue k pairs with
      | some v => some v
      | none => lookupStr k d := by
  induction pairs with
  | nil => intro d k; rfl
  | cons p ps ih =>
    intro d k
    simp only [List.foldl_cons, lastValue]
    rw [ih]
    cases hps : lastValue k ps with
    | some v => rfl
    | none =>
      by_cases hp : p.1 = k
      · subst hp
        simp [lookupStr_dictInsert_self]
      · simp [hp, lookupStr_dictInsert_other _ _ _ _ hp]

theorem dictKeys_map_replace (d : List (String × Json)) (k : String) (v : Json) :
    dictKeys (d.map (fun p => if p.1 = k then (k, v) else p)) = dictKeys d := by
  unfold dictKeys
  rw [List.map_map]
  apply List.map_congr_left
  intro p _
  by_cases hq : p.1 = k
  · simp [hq]
  · simp [hq]

theorem dictInsert_nodup_keys {d : List (String × Json)} {k : String} {v : Json}
    (h : (dictKeys d).Nodup) : (dictKeys (dictInsert d k v)).Nodup := by
  by_cases hmem : (d.any fun p => decide (p.1 = k)) = true
  · unfold dictInsert
    rw [if_pos hmem, dictKeys_map_replace]
    exact h
  · unfold dictInsert
    rw [if_neg hmem]
    unfold dictKeys
    rw [List.map_append]
    simp only [List.map_cons, List.map_nil]
    rw [List.nodup_append]
    refine ⟨h, List.nodup_singleton k, ?_⟩
    intro x hx
    simp only [List.mem_singleton]
    intro hxk
    subst hxk
    simp only [List.mem_map] at hx
    obtain ⟨p, hp, hpx⟩ := hx
    exact hmem (List.any_eq_true.mpr ⟨p, hp, by simp [hpx]⟩)

theorem foldl_dictInsert_nodup_keys (pairs : List (String × Json)) :
    ∀ d, (dictKeys d).Nodup →
      (dictKeys (pairs.foldl (fun d p => dictInsert d p.1 p.2) d)).Nodup := by
  induction pairs with
  | nil => intro d h; exact h
  | cons p ps ih =>
    intro d h
    simp only [List.foldl_cons]
    exact ih _ (dictInsert_nodup_keys h)

theorem object_pairs_lastwin_nodup_keys (pairs : List (String × Json)) :
    (dictKeys (object_pairs_lastwin pairs)).Nodup :=
  foldl_dictInsert_nodup_keys pairs [] (by simp [dictKeys])

theorem keysFresh_iff_nodup : ∀ l : List String, keysFresh l = true ↔ l.Nodup := by
  intro l
  induction l with
  | nil => simp [keysFresh]
  | cons s rest ih => simp [keysFresh, ih, List.nodup_cons]

theorem noDupKeysPairsB_iff : ∀ ps : List (String × Json),
    noDupKeysPairsB ps = true ↔ ∀ p ∈ ps, noDupKeysB p.2 = true := by
  intro ps
  induction ps with
  | nil => simp [noDupKeysPairsB]
  | cons p ps ih => simp [noDupKeysPairsB, ih]

theorem mem_dictInsert_val (d : List (String × Json)) (k : String) (v : Json) :
    ∀ q ∈ dictInsert d k v, q.2 = v ∨ ∃ p ∈ d, q.2 = p.2 := by
  intro q hq
  unfold dictInsert at hq
  by_cases h : (d.any fun p => decide (p.1 = k)) = true
  · rw [if_pos h] at hq
    rw [List.mem_map] at hq
    obtain ⟨p, hp, hpq⟩ := hq
    by_cases hpk : p.1 = k
    · left; rw [if_pos hpk] at hpq; rw [← hpq]
    · right; exact ⟨p, hp, by rw [if_neg hpk] at hpq; rw [← hpq]⟩
  · rw [if_neg h] at hq
    rcases List.mem_append.mp hq with h1 | h1
    · right; exact ⟨q, h1, rfl⟩
    · left; simp at h1; rw [h1]

theorem mem_foldl_dictInsert_val (pairs : List (String × Json)) :
    ∀ d, ∀ q ∈ pairs.foldl (fun d p => dictInsert d p.1 p.2) d,
      (∃ p ∈ pairs, q.2 = p.2) ∨ ∃ p ∈ d, q.2 = p.2 := by
  induction pairs with
  | nil => intro d q hq; right; exact ⟨q, hq, rfl⟩
  | cons p ps ih =>
    intro d q hq
    simp only [List.foldl_cons] at hq
    rcases ih (dictInsert d p.1 p.2) q hq with h | h
    · left; obtain ⟨p', hp', he⟩ := h; exact ⟨p', by simp [hp'], he⟩
    · obtain ⟨p', hp', he⟩ := h
      rcases mem_dictInsert_val d p.1 p.2 p' hp' with h2 | h2
      · left; exact ⟨p, by simp, by rw [he, h2]⟩
      · right; obtain ⟨p'', hp'', he2⟩ := h2; exact ⟨p'', hp'', by rw [he, he2]⟩

theorem mem_object_pairs_lastwin_val (pairs : List (String × Json)) :
    ∀ q ∈ object_pairs_lastwin pairs, ∃ p ∈ pairs, q.2 = p.2 := by
  intro q hq
  rcases mem_foldl_dictInsert_val pairs [] q hq with h | h
  · exact h
  · simp at h

mutual
theorem noDupKeys_applyHook : ∀ r : RawJson, noDupKeysB (applyHook r) = true
  | RawJson.null => rfl
  | RawJson.bool _ => rfl
  | RawJson.num _ => rfl
  | RawJson.str _ => rfl
  | RawJson.arr xs => by
    simp only [applyHook, noDupKeysB]
    exact noDupKeys_applyHookList xs
  | RawJson.obj ps => by
    simp only [applyHook, noDupKeysB, Bool.and_eq_true]
    constructor
    · rw [keysFresh_iff_nodup]
      exact object_pairs_lastwin_nodup_keys (applyHookPairs ps)
    · rw [noDupKeysPairsB_iff]
      intro q hq
      obtain ⟨p, hp, he⟩ := mem_object_pairs_lastwin_val (applyHookPairs ps) q hq
      rw [he]
      exact noDupKeys_applyHookPairs ps p hp

theorem noDupKeys_applyHookList : ∀ xs : List RawJson, noDupKeysListB (applyHookList xs) = true
  | [] => rfl
  | x :: xs => by
    simp only [applyHookList, noDupKeysListB, Bool.and_eq_true]
    exact ⟨noDupKeys_applyHook x, noDupKeys_applyHookList xs⟩

theorem noDupKeys_applyHookPairs :
    ∀ ps : List (String × RawJson), ∀ q ∈ applyHookPairs ps, noDupKeysB q.2 = true
  | [], _, h => by simp [applyHookPairs] at h
  | p :: ps, q, h => by
    simp only [applyHookPairs, List.mem_cons] at h
    rcases h with h | h
    · rw [h]
      exact noDupKeys_applyHook p.2
    · exact noDupKeys_applyHookPairs ps q h
end

/-- Claim C4: object parsing resolves duplicate keys by
last-write-wins at every nesting level.  (1) For any pair list the hook
produces a dict whose lookup at any key is the value of that key's last
occurrence; (2) the hook is applied recursively at every object node of
the parse tree; (3) consequently every object in the parsed value has
pairwise-distinct keys; (4) the input with pairs a:1, a:2 parses to the
single-entry object a:2. -/
theorem c4_duplicate_keys_lastwin :
    (∀ (pairs : List (String × Json)) (k : String),
      lookupStr k (object_pairs_lastwin pairs) = lastValue k pairs) ∧
    (∀ ps : List (String × RawJson),
      applyHook (RawJson.obj ps) = Json.obj (object_pairs_lastwin (applyHookPairs ps))) ∧
    (∀ r : RawJson, noDupKeysB (applyHook r) = true) ∧
    applyHook (RawJson.obj [("a", RawJson.num 1), ("a", RawJson.num 2)]) =
      Json.obj [("a", Json.num 2)] := by
  refine ⟨?_, fun ps => rfl, noDupKeys_applyHook, rfl⟩
  intro pairs k
  have h := lookupStr_foldl_dictInsert pairs [] k
  unfold object_pairs_lastwin
  rw [h]
  cases lastValue k pairs <;> rfl

/-! ## Claim C2: outer explosion semantics -/
theorem getD_set_ne {α : Type} (dflt : α) :
    ∀ (l : List α) (k j : Nat) (x : α), j ≠ k →
    (l.set k x).getD j dflt = l.getD j dflt := by
  intro l
  induction l with
  | nil => intro k j x _; simp
  | cons a as ih =>
    intro k j x hne
    cases k with
    | zero =>
      cases j with
      | zero => exact absurd rfl hne
      | succ j' => simp [List.set, List.getD]
    | succ k' =>
      cases j with
      | zero => simp [List.set, List.getD]
      | succ j' =>
        simp only [List.set, List.getD_cons_succ]
        exact ih k' j' x (fun he => hne (by rw [he]))

/-- Claim C2: array explosion has outer (keep-empty) semantics.  For the
column `withColumn` resolves the chosen name to: the new rows are the
per-row explosions concatenated in order; a row whose array cell holds
`L ≥ 1` elements becomes exactly those `L` rows, one per element, with
every other column position unchanged; a row whose array cell is empty
or null becomes exactly one row with a null in that position; no row
ever produces zero output rows. -/
theorem c2_explode_outer :
    (∀ (F : Frame) (n : String) (k : Nat), findNameIdx n F.cols = some k →
      (withColumn_explode F n).rows = concatMap (explode_row k) F.rows) ∧
    (∀ (k : Nat) (row : List Cell) (e : Cell) (es : List Cell),
      row.getD k Cell.null = Cell.elems (e :: es) →
      explode_row k row = (e :: es).map (fun x => row.set k x) ∧
      (explode_row k row).length = (e :: es).length ∧
      ∀ r ∈ explode_row k row, ∀ j, j ≠ k → r.getD j Cell.null = row.getD j Cell.null) ∧
    (∀ (k : Nat) (row : List Cell),
      row.getD k Cell.null = Cell.elems [] ∨ row.getD k Cell.null = Cell.null →
      explode_row k row = [row.set k Cell.null]) ∧
    (∀ (k : Nat) (row : List Cell), explode_row k row ≠ []) := by
  refine ⟨?_, ?_, ?_, ?_⟩
  · intro F n k h
    simp only [withColumn_explode, h]
  · intro k row e es h
    have he : explode_row k row = (e :: es).map (fun x => row.set k x) := by
      unfold explode_row
      rw [h]
    refine ⟨he, by rw [he]; simp, ?_⟩
    intro r hr j hj
    rw [he] at hr
    rw [List.mem_map] at hr
    obtain ⟨x, _, hx⟩ := hr
    rw [← hx]
    exact getD_set_ne Cell.null row k j x hj
  · intro k row h
    unfold explode_row
    rcases h with h | h <;> rw [h]
  · intro k row
    unfold explode_row
    cases hc : row.getD k Cell.null with
    | elems l => cases l <;> simp
    | null => simp
    | atom a => simp
    | obj cs => simp

/-- Witness for C2 at the spec's example: the record id=5,
tags=[x, y] explodes to two rows (id=5, tags=x), (id=5, tags=y), and a
row with an empty tags array yields one row with a null. -/
theorem c2_explode_outer_witness :
    findNameIdx "tags" [("id", DType.scalar), ("tags", DType.arr DType.scalar)] = some 1 ∧
    ([Cell.atom (Atom.int 5),
      Cell.elems [Cell.atom (Atom.str "x"), Cell.atom (Atom.str "y")]].getD 1 Cell.null =
      Cell.elems [Cell.atom (Atom.str "x"), Cell.atom (Atom.str "y")]) ∧
    explode_row 1 [Cell.atom (Atom.int 5),
        Cell.elems [Cell.atom (Atom.str "x"), Cell.atom (Atom.str "y")]] =
      [[Cell.atom (Atom.int 5), Cell.atom (Atom.str "x")],
       [Cell.atom (Atom.int 5), Cell.atom (Atom.str "y")]] ∧
    explode_row 1 [Cell.atom (Atom.int 5), Cell.elems []] =
      [[Cell.atom (Atom.int 5), Cell.null]] := by
  refine ⟨rfl, rfl, ?_, ?_⟩
  · rw [(c2_explode_outer.2.1 1
      [Cell.atom (Atom.int 5), Cell.elems [Cell.atom (Atom.str "x"), Cell.atom (Atom.str "y")]]
      (Cell.atom (Atom.str "x")) [Cell.atom (Atom.str "y")] rfl).1]
    rfl
  · rw [c2_explode_outer.2.2.1 1 [Cell.atom (Atom.int 5), Cell.elems []] (Or.inl rfl)]
    rfl

theorem concatMap_nil {α β : Type} (f : α → List β) : concatMap f [] = [] := rfl

theorem concatMap_cons {α β : Type} (f : α → List β) (a : α) (l : List α) :
    concatMap f (a :: l) = f a ++ concatMap f l := rfl

theorem fsChildren_of_fresh (p : String) :
    ∀ (fs : List (String × DType)) (existing : List String),
    (∀ f ∈ fs, (p ++ "_" ++ f.1) ∉ existing) →
    (fs.map (fun f => p ++ "_" ++ f.1)).Nodup →
    (fsChildren p fs existing).1 = fs.map (fun f => (p ++ "_" ++ f.1, f.2)) ∧
    (∀ x, x ∈ (fsChildren p fs existing).2 ↔
      x ∈ fs.map (fun f => p ++ "_" ++ f.1) ∨ x ∈ existing) := by
  intro fs
  induction fs with
  | nil =>
    intro existing _ _
    exact ⟨rfl, by simp [fsChildren]⟩
  | cons f rest ih =>
    intro existing hfresh hnd
    obtain ⟨c, t⟩ := f
    have hb : (p ++ "_" ++ c) ∉ existing := hfresh (c, t) (by simp)
    have hu : unique_name (p ++ "_" ++ c) existing = (p ++ "_" ++ c, (p ++ "_" ++ c) :: existing) :=
      unique_name_of_not_mem hb
    simp only [List.map_cons, List.nodup_cons, List.mem_map] at hnd
    have ihr := ih ((p ++ "_" ++ c) :: existing)
      (by
        intro f' hf'
        simp only [List.mem_cons]
        push_neg
        refine ⟨?_, hfresh f' (by simp [hf'])⟩
        intro he
        exact hnd.1 ⟨f', hf', he⟩)
      hnd.2
    constructor
    · show ((unique_name (p ++ "_" ++ c) existing).1, t) ::
        (fsChildren p rest (unique_name (p ++ "_" ++ c) existing).2).1 = _
      rw [hu]
      simp only [List.map_cons]
      exact congrArg _ ihr.1
    · intro x
      show x ∈ (fsChildren p rest (unique_name (p ++ "_" ++ c) existing).2).2 ↔ _
      rw [hu]
      rw [ihr.2 x]
      simp only [List.map_cons, List.mem_cons]
      tauto

theorem fsCols_of_fresh :
    ∀ (cols : List (String × DType)) (existing : List String),
    (cols.map Prod.fst).Nodup →
    (concatMap structBases cols).Nodup →
    (∀ b ∈ concatMap structBases cols, b ∉ cols.map Prod.fst) →
    (∀ c ∈ cols, c.1 ∈ existing) →
    (∀ b ∈ concatMap structBases cols, b ∉ existing) →
    fsCols cols existing = concatMap structExpandCols cols := by
  intro cols
  induction cols with
  | nil => intro existing _ _ _ _ _; rfl
  | cons hd rest ih =>
    intro existing h1 h2 h3 h4 h5
    obtain ⟨name, t⟩ := hd
    rw [concatMap_cons]
    simp only [List.map_cons, List.nodup_cons] at h1
    have hname_rest : ∀ c ∈ rest, c.1 ≠ name := by
      intro c hc he
      exact h1.1 (he ▸ List.mem_map_of_mem Prod.fst hc)
    have hmem_rest : ∀ c ∈ rest, c.1 ∈ existing.erase name := by
      intro c hc
      exact (List.mem_erase_of_ne (hname_rest c hc)).mpr (h4 c (by simp [hc]))
    cases t with
    | struct fs =>
      have hbases_cons :
          concatMap structBases ((name, DType.struct fs) :: rest) =
          (fs.map (fun f => name ++ "_" ++ f.1)) ++ concatMap structBases rest := rfl
      rw [hbases_cons] at h2 h3 h5
      rw [List.nodup_append] at h2
      have hfresh1 : ∀ f ∈ fs, (name ++ "_" ++ f.1) ∉ existing.erase name := by
        intro f hf hmem
        exact h5 _ (by simp [List.mem_map_of_mem _ hf])
          ((existing.erase_sublist name).mem hmem)
      have hch := fsChildren_of_fresh name fs (existing.erase name) hfresh1 h2.1
      show (fsChildren name fs (existing.erase name)).1 ++
          fsCols rest (fsChildren name fs (existing.erase name)).2 = _
      rw [hch.1]
      have hrest := ih (fsChildren name fs (existing.erase name)).2
        h1.2 h2.2.1
        (by
          intro b hb he
          exact h3 b (by simp [hb]) (by simp [he]))
        (by
          intro c hc
          rw [hch.2 c.1]
          exact Or.inr (hmem_rest c hc))
        (by
          intro b hb
          rw [hch.2 b]
          push_neg
          refine ⟨?_, ?_⟩
          · intro he
            exact h2.2.2 he hb
          · intro hmem
            exact h5 b (by simp [hb]) ((existing.erase_sublist name).mem hmem))
      rw [hrest]
      rfl
    | scalar =>
      have hb : name ∈ existing := h4 (name, DType.scalar) (by simp)
      show (if name ∈ existing then
          (name, DType.scalar) :: fsCols rest (existing.erase name)
        else
          ((unique_name name existing).1, DType.scalar) ::
            fsCols rest (unique_name name existing).2) = _
      rw [if_pos hb]
      have hrest := ih (existing.erase name) h1.2
        (by simpa [concatMap_cons, structBases] using h2)
        (by
          intro b hbm he
          exact h3 b (by simpa [concatMap_cons, structBases] using hbm) (by simp [he]))
        hmem_rest
        (by
          intro b hbm hmem
          exact h5 b (by simpa [concatMap_cons, structBases] using hbm)
            ((existing.erase_sublist name).mem hmem))
      rw [hrest]
      rfl
    | arr et =>
      have hb : name ∈ existing := h4 (name, DType.arr et) (by simp)
      show (if name ∈ existing then
          (name, DType.arr et) :: fsCols rest (existing.erase name)
        else
          ((unique_name name existing).1, DType.arr et) ::
            fsCols rest (unique_name name existing).2) = _
      rw [if_pos hb]
      have hrest := ih (existing.erase name) h1.2
        (by simpa [concatMap_cons, structBases] using h2)
        (by
          intro b hbm he
          exact h3 b (by simpa [concatMap_cons, structBases] using hbm) (by simp [he]))
        hmem_rest
        (by
          intro b hbm hmem
          exact h5 b (by simpa [concatMap_cons, structBases] using hbm)
            ((existing.erase_sublist name).mem hmem))
      rw [hrest]
      rfl

/-- Claim C3: struct inlining replaces each struct column `p` with
children `c1..ck` by `k` columns with base names `p_ci` (exactly these
names whenever they collide with nothing); in particular the single
record with a = (b:1, c:2) flattens to exactly the columns a_b = 1 and
a_c = 2. -/
theorem c3_struct_inlining :
    (∀ cols : List (String × DType),
      (cols.map Prod.fst ++ concatMap structBases cols).Nodup →
      fsCols cols (cols.map Prod.fst) = concatMap structExpandCols cols) ∧
    flatten_df exFrameC3 50 =
      ({ cols := [("a_b", DType.scalar), ("a_c", DType.scalar)],
         rows := [[Cell.atom (Atom.int 1), Cell.atom (Atom.int 2)]] }, false) := by
  constructor
  · intro cols hnd
    rw [List.nodup_append] at hnd
    exact fsCols_of_fresh cols (cols.map Prod.fst) hnd.1 hnd.2.1
      (fun b hb hm => hnd.2.2 hm hb)
      (fun c hc => List.mem_map_of_mem Prod.fst hc)
      (fun b hb hm => hnd.2.2 hm hb)
  · rfl

/-- Witness for C3's universal part: a frame with one struct column and
one co-resident scalar column, collision-free. -/
theorem c3_struct_inlining_witness :
    (((([("a", DType.struct [("b", DType.scalar), ("c", DType.scalar)]), ("id", DType.scalar)] :
        List (String × DType)).map Prod.fst) ++
      concatMap structBases
        [("a", DType.struct [("b", DType.scalar), ("c", DType.scalar)]), ("id", DType.scalar)]).Nodup) ∧
    fsCols [("a", DType.struct [("b", DType.scalar), ("c", DType.scalar)]), ("id", DType.scalar)]
        ["a", "id"] =
      [("a_b", DType.scalar), ("a_c", DType.scalar), ("id", DType.scalar)] := by
  constructor
  · decide
  · exact c3_struct_inlining.1
      [("a", DType.struct [("b", DType.scalar), ("c", DType.scalar)]), ("id", DType.scalar)]
      (by decide)

/-- Claim C5 fails on the code: with column order `x.y`, `x_y` the pass
first renames `x.y` to `x_y`, creating a duplicate pair, and the
subsequent `withColumnRenamed("x_y", "x_y_1")` renames BOTH matching
columns, so the output has two columns both named `x_y_1`: a duplicate
final name remains and the name `x_y` is lost.  In the opposite order
the pass produces the documented distinct pair `x_y`, `x_y_1`. -/
theorem c5_sanitize_collision_bug :
    sanitize_column_names exFrameC5 =
      { cols := [("x_y_1", DType.scalar), ("x_y_1", DType.scalar)],
        rows := [[Cell.atom (Atom.int 1), Cell.atom (Atom.int 2)]] } ∧
    ¬ (((sanitize_column_names exFrameC5).cols.map Prod.fst).Nodup) ∧
    sanitize_column_names exFrameC5rev =
      { cols := [("x_y", DType.scalar), ("x_y_1", DType.scalar)],
        rows := [[Cell.atom (Atom.int 2), Cell.atom (Atom.int 1)]] } := by
  exact ⟨rfl, by decide, rfl⟩

/-! ## Claim C7: exhaustion warning -/
theorem hasComposite_eq_not_flat (F : Frame) : hasCompositeF F = !(isFlatF F) := by
  unfold hasCompositeF isFlatF
  cases hs : hasStructF F <;> cases fa : find_array_column F <;> simp

theorem flatten_body_of_flat (F : Frame) (h : isFlatF F = true) : flatten_body F = F := by
  unfold isFlatF at h
  rw [Bool.and_eq_true] at h
  have hs : hasStructF F = false := by
    have := h.1
    cases hval : hasStructF F
    · rfl
    · rw [hval] at this; exact absurd this (by simp)
  have ha : find_array_column F = none := by
    have := h.2
    cases hval : find_array_column F
    · rfl
    · rw [hval] at this; simp at this
  unfold flatten_body
  rw [if_neg (by simp [hs]), ha]

theorem applyN_flat_const (F : Frame) (h : isFlatF F = true) : ∀ n, applyN F n = F := by
  intro n
  induction n with
  | zero => rfl
  | succ n ih =>
    show applyN (flatten_body F) n = F
    rw [flatten_body_of_flat F h]
    exact ih

theorem flatten_go_succ (F : Frame) (fuel : Nat) :
    flatten_go F (fuel + 1) =
      if isFlatF F = true then (F, decide (fuel = 0)) else flatten_go (flatten_body F) fuel := rfl

theorem applyN_add (a : Nat) : ∀ (b : Nat) (F : Frame), applyN F (a + b) = applyN (applyN F a) b := by
  induction a with
  | zero => intro b F; rw [Nat.zero_add]; rfl
  | succ a ih =>
    intro b F
    show applyN F (a + 1 + b) = applyN (applyN (flatten_body F) a) b
    rw [show a + 1 + b = (a + b) + 1 by omega]
    show applyN (flatten_body F) (a + b) = _
    exact ih b (flatten_body F)

theorem flatten_go_flat_of_applyN : ∀ (fuel : Nat) (F : Frame),
    isFlatF (applyN F fuel) = true → isFlatF (flatten_go F fuel).1 = true := by
  intro fuel
  induction fuel with
  | zero => intro F h; exact h
  | succ fuel ih =>
    intro F h
    by_cases hf : isFlatF F = true
    · rw [flatten_go_succ, if_pos hf]
      exact hf
    · rw [flatten_go_succ, if_neg hf]
      exact ih (flatten_body F) h

theorem flatten_go_warned_iff : ∀ (m : Nat) (F : Frame),
    (flatten_go F m).2 = false ↔ ∃ j, j + 2 ≤ m ∧ isFlatF (applyN F j) = true := by
  intro m
  induction m with
  | zero =>
    intro F
    simp only [flatten_go]
    constructor
    · intro h; exact absurd h (by simp)
    · intro ⟨j, hj, _⟩; omega
  | succ m ih =>
    intro F
    by_cases hf : isFlatF F = true
    · rw [flatten_go_succ, if_pos hf]
      constructor
      · intro h
        have hm : m ≠ 0 := by
          intro he
          rw [he] at h
          simp at h
        exact ⟨0, by omega, hf⟩
      · intro ⟨j, hj, _⟩
        simp only [decide_eq_false_iff_not]
        omega
    · rw [flatten_go_succ, if_neg hf]
      rw [ih (flatten_body F)]
      constructor
      · intro ⟨j, hj, hflat⟩
        exact ⟨j + 1, by omega, hflat⟩
      · intro ⟨j, hj, hflat⟩
        cases j with
        | zero => exact absurd hflat hf
        | succ j' => exact ⟨j', by omega, hflat⟩

/-- Claim C7 (amended): `flatten_df` always returns the best-effort frame
after the final sanitize pass together with the warning flag, and
exhaustion with composite columns remaining always warns; but the
warning is emitted exactly when the flat-check does not succeed strictly
before the last permitted iteration, so it can also fire when flattening
completes at the cap (see the counterexample). -/
theorem c7_exhaustion_warning (df : Frame) (m : Nat) :
    flatten_df df m = (sanitize_column_names (flatten_go df m).1, (flatten_go df m).2) ∧
    (hasCompositeF (flatten_go df m).1 = true → (flatten_go df m).2 = true) ∧
    ((flatten_go df m).2 = false ↔ ∃ j, j + 2 ≤ m ∧ isFlatF (applyN df j) = true) := by
  refine ⟨rfl, ?_, flatten_go_warned_iff m df⟩
  intro hcomp
  by_contra hw
  have hw' : (flatten_go df m).2 = false := by
    cases hval : (flatten_go df m).2
    · rfl
    · exact absurd hval hw
  obtain ⟨j, hj, hflat⟩ := (flatten_go_warned_iff m df).mp hw'
  have hpad : applyN df m = applyN df j := by
    rw [show m = j + (m - j) by omega, applyN_add, applyN_flat_const _ hflat]
  have hres : isFlatF (flatten_go df m).1 = true :=
    flatten_go_flat_of_applyN m df (by rw [hpad]; exact hflat)
  rw [hasComposite_eq_not_flat, hres] at hcomp
  simp at hcomp

/-- Witness for C7's amended statement at a concrete composite frame and
an exhausting cap: a struct wrapping an array with cap 1 — the loop
exhausts, the returned frame still has a composite column, and the
warning is set. -/
theorem c7_exhaustion_warning_witness :
    hasCompositeF (flatten_go exFrameC7deep 1).1 = true ∧
    (flatten_go exFrameC7deep 1).2 = true ∧
    flatten_df exFrameC7deep 1 =
      (sanitize_column_names (flatten_go exFrameC7deep 1).1, (flatten_go exFrameC7deep 1).2) := by
  have h := c7_exhaustion_warning exFrameC7deep 1
  exact ⟨by decide, h.2.1 (by decide), h.1⟩

/-- Counterexample to C7 as stated: on an already-flat frame with
`max_iterations = 1`, flattening completes within the cap (the result
has no composite columns) and yet the exhaustion warning is emitted,
because the completion check happens in the last permitted iteration. -/
theorem c7_warning_on_completion_counterexample :
    isFlatF exFrameC7 = true ∧
    isFlatF (flatten_go exFrameC7 1).1 = true ∧
    (flatten_go exFrameC7 1).2 = true ∧
    (flatten_df exFrameC7 1).2 = true :=
  ⟨rfl, rfl, rfl, rfl⟩

theorem fsChildren_snd (p : String) :
    ∀ (fs : List (String × DType)) (ex : List String),
    ((fsChildren p fs ex).1).map Prod.snd = fs.map Prod.snd := by
  intro fs
  induction fs with
  | nil => intro ex; rfl
  | cons f rest ih =>
    intro ex
    obtain ⟨c, t⟩ := f
    show Prod.snd ((unique_name (p ++ "_" ++ c) ex).1, t) ::
      ((fsChildren p rest (unique_name (p ++ "_" ++ c) ex).2).1).map Prod.snd = _
    rw [ih]
    rfl

theorem fsCols_snd :
    ∀ (cols : List (String × DType)) (ex : List String),
    (fsCols cols ex).map Prod.snd = concatMap structExpandTypes cols := by
  intro cols
  induction cols with
  | nil => intro ex; rfl
  | cons hd rest ih =>
    intro ex
    obtain ⟨name, t⟩ := hd
    cases t with
    | struct fs =>
      show ((fsChildren name fs (ex.erase name)).1 ++
        fsCols rest (fsChildren name fs (ex.erase name)).2).map Prod.snd = _
      rw [List.map_append, fsChildren_snd, ih]
      rfl
    | scalar =>
      show (if name ∈ ex then (name, DType.scalar) :: fsCols rest (ex.erase name)
        else ((unique_name name ex).1, DType.scalar) ::
          fsCols rest (unique_name name ex).2).map Prod.snd = _
      by_cases h : name ∈ ex
      · rw [if_pos h]
        show DType.scalar :: (fsCols rest (ex.erase name)).map Prod.snd = _
        rw [ih]
        rfl
      · rw [if_neg h]
        show DType.scalar :: (fsCols rest (unique_name name ex).2).map Prod.snd = _
        rw [ih]
        rfl
    | arr et =>
      show (if name ∈ ex then (name, DType.arr et) :: fsCols rest (ex.erase name)
        else ((unique_name name ex).1, DType.arr et) ::
          fsCols rest (unique_name name ex).2).map Prod.snd = _
      by_cases h : name ∈ ex
      · rw [if_pos h]
        show DType.arr et :: (fsCols rest (ex.erase name)).map Prod.snd = _
        rw [ih]
        rfl
      · rw [if_neg h]
        show DType.arr et :: (fsCols rest (unique_name name ex).2).map Prod.snd = _
        rw [ih]
        rfl

theorem find_array_column_first :
    ∀ (cols : List (String × DType)) (n : String), find_array_column_go cols = some n →
    ∃ k, k < cols.length ∧ (cols.getD k ("", DType.scalar)).1 = n ∧
      (cols.getD k ("", DType.scalar)).2.isArrT = true ∧
      ∀ j, j < k → (cols.getD j ("", DType.scalar)).2.isArrT = false := by
  intro cols
  induction cols with
  | nil => intro n h; simp [find_array_column_go] at h
  | cons hd rest ih =>
    intro n h
    obtain ⟨n0, t0⟩ := hd
    by_cases ha : t0.isArrT = true
    · have : some n0 = some n := by
        simpa [find_array_column_go, ha] using h
      refine ⟨0, by simp, ?_, ?_, ?_⟩
      · simpa using Option.some.inj this
      · simpa using ha
      · intro j hj; omega
    · have hrest : find_array_column_go rest = some n := by
        simpa [find_array_column_go, ha] using h
      obtain ⟨k, hk1, hk2, hk3, hk4⟩ := ih n hrest
      refine ⟨k + 1, by simpa using hk1, by simpa using hk2, by simpa using hk3, ?_⟩
      intro j hj
      cases j with
      | zero => simpa using ha
      | succ j' =>
        have := hk4 j' (by omega)
        simpa using this

/-- Claim C1: in every iteration of the flattening loop, if any column is
a struct then the iteration applies struct inlining — every struct column
is expanded into its children types, non-struct columns pass through, and
the rows are rewritten one-for-one (no explosion); array explosion
happens only in an iteration with no struct column left, and then the
single column named by `find_array_column` — the first array column in
column order — is exploded while every other column is untouched. -/
theorem c1_struct_inlining_priority :
    (∀ (cur : Frame) (fuel : Nat), hasStructF cur = true →
      flatten_go cur (fuel + 1) = flatten_go (flatten_structs cur) fuel ∧
      (flatten_structs cur).rows = cur.rows.map (fsRow cur.cols) ∧
      (flatten_structs cur).cols.map Prod.snd = concatMap structExpandTypes cur.cols) ∧
    (∀ (cur : Frame) (fuel : Nat) (n : String), hasStructF cur = false →
      find_array_column cur = some n →
      flatten_go cur (fuel + 1) = flatten_go (withColumn_explode cur n) fuel ∧
      (∃ k, k < cur.cols.length ∧ (cur.cols.getD k ("", DType.scalar)).1 = n ∧
        (cur.cols.getD k ("", DType.scalar)).2.isArrT = true ∧
        ∀ j, j < k → (cur.cols.getD j ("", DType.scalar)).2.isArrT = false) ∧
      (∀ k', findNameIdx n cur.cols = some k' →
        (withColumn_explode cur n).cols.length = cur.cols.length ∧
        ∀ j, j ≠ k' → (withColumn_explode cur n).cols.getD j ("", DType.scalar) =
          cur.cols.getD j ("", DType.scalar))) := by
  constructor
  · intro cur fuel h
    have hnf : ¬(isFlatF cur = true) := by
      unfold isFlatF
      rw [h]
      simp
    have hstep : flatten_go cur (fuel + 1) = flatten_go (flatten_structs cur) fuel := by
      rw [flatten_go_succ, if_neg hnf]
      unfold flatten_body
      rw [if_pos h]
    have hthen : flatten_structs cur =
        { cols := fsCols cur.cols (cur.cols.map Prod.fst),
          rows := cur.rows.map (fsRow cur.cols) } := by
      have h' : (cur.cols.any fun c => c.2.isStructT) = true := h
      unfold flatten_structs
      rw [if_pos h']
    refine ⟨hstep, by rw [hthen], ?_⟩
    rw [hthen]
    exact fsCols_snd cur.cols (cur.cols.map Prod.fst)
  · intro cur fuel n hs hfa
    have hnf : ¬(isFlatF cur = true) := by
      unfold isFlatF
      rw [hs, hfa]
      simp
    refine ⟨?_, find_array_column_first cur.cols n hfa, ?_⟩
    · rw [flatten_go_succ, if_neg hnf]
      unfold flatten_body
      rw [if_neg (by simp [hs]), hfa]
    · intro k' hk'
      unfold withColumn_explode
      rw [hk']
      constructor
      · simp
      · intro j hj
        exact getD_set_ne ("", DType.scalar) cur.cols k' j _ hj

/-- Witness for C1 at concrete frames: a frame holding both a struct and
an array column takes the inlining branch; a struct-free frame with two
array columns explodes exactly the first. -/
theorem c1_struct_inlining_priority_witness :
    (hasStructF exFrameC1a = true ∧
      flatten_go exFrameC1a (1 + 1) = flatten_go (flatten_structs exFrameC1a) 1) ∧
    (hasStructF exFrameC1b = false ∧
      find_array_column exFrameC1b = some "t1" ∧
      flatten_go exFrameC1b (1 + 1) = flatten_go (withColumn_explode exFrameC1b "t1") 1) := by
  refine ⟨⟨rfl, (c1_struct_inlining_priority.1 exFrameC1a 1 rfl).1⟩,
    rfl, rfl, (c1_struct_inlining_priority.2 exFrameC1b 1 "t1" rfl rfl).1⟩

theorem sum_of_snd_eq (l₁ l₂ : List (String × DType))
    (h : l₁.map Prod.snd = l₂.map Prod.snd) : sumNodes l₁ = sumNodes l₂ := by
  unfold sumNodes
  have h1 : l₁.map (fun c => dnodes c.2) = (l₁.map Prod.snd).map dnodes := by
    rw [List.map_map]; rfl
  have h2 : l₂.map (fun c => dnodes c.2) = (l₂.map Prod.snd).map dnodes := by
    rw [List.map_map]; rfl
  rw [h1, h2, h]

theorem sumNodes_append (l₁ l₂ : List (String × DType)) :
    sumNodes (l₁ ++ l₂) = sumNodes l₁ + sumNodes l₂ := by
  unfold sumNodes
  rw [List.map_append, List.sum_append]

theorem dnodesL_eq_sum : ∀ fs : List (String × DType), dnodesL fs = sumNodes fs := by
  intro fs
  induction fs with
  | nil => rfl
  | cons f rest ih =>
    show dnodes f.2 + dnodesL rest = _
    rw [ih]
    unfold sumNodes
    simp

theorem fsChildren_sumNodes (p : String) (fs : List (String × DType)) (ex : List String) :
    sumNodes (fsChildren p fs ex).1 = dnodesL fs := by
  rw [dnodesL_eq_sum]
  exact sum_of_snd_eq _ _ (fsChildren_snd p fs ex)

theorem fsCols_sumNodes :
    ∀ (cols : List (String × DType)) (ex : List String),
    sumNodes (fsCols cols ex) + structColCount cols = sumNodes cols := by
  intro cols
  induction cols with
  | nil => intro ex; rfl
  | cons hd rest ih =>
    intro ex
    obtain ⟨name, t⟩ := hd
    cases t with
    | struct fs =>
      have hshape : fsCols ((name, DType.struct fs) :: rest) ex =
          (fsChildren name fs (ex.erase name)).1 ++
            fsCols rest (fsChildren name fs (ex.erase name)).2 := rfl
      rw [hshape, sumNodes_append, fsChildren_sumNodes]
      have hcount : structColCount ((name, DType.struct fs) :: rest) =
          structColCount rest + 1 := by
        simp [structColCount, List.countP_cons, DType.isStructT]
      have hsum : sumNodes ((name, DType.struct fs) :: rest) =
          (1 + dnodesL fs) + sumNodes rest := by
        simp only [sumNodes, List.map_cons, List.sum_cons]
        rfl
      have := ih (fsChildren name fs (ex.erase name)).2
      rw [hcount, hsum]
      omega
    | scalar =>
      have hcount : structColCount ((name, DType.scalar) :: rest) = structColCount rest := by
        simp [structColCount, List.countP_cons, DType.isStructT]
      have hsum : sumNodes ((name, DType.scalar) :: rest) = dnodes DType.scalar + sumNodes rest := by
        simp [sumNodes]
      by_cases h : name ∈ ex
      · have hshape : fsCols ((name, DType.scalar) :: rest) ex =
            (name, DType.scalar) :: fsCols rest (ex.erase name) := by
          show (if name ∈ ex then (name, DType.scalar) :: fsCols rest (ex.erase name)
            else ((unique_name name ex).1, DType.scalar) ::
              fsCols rest (unique_name name ex).2) = _
          rw [if_pos h]
        rw [hshape, hcount, hsum]
        have hsum2 : sumNodes ((name, DType.scalar) :: fsCols rest (ex.erase name)) =
            dnodes DType.scalar + sumNodes (fsCols rest (ex.erase name)) := by
          simp [sumNodes]
        rw [hsum2]
        have := ih (ex.erase name)
        omega
      · have hshape : fsCols ((name, DType.scalar) :: rest) ex =
            ((unique_name name ex).1, DType.scalar) :: fsCols rest (unique_name name ex).2 := by
          show (if name ∈ ex then (name, DType.scalar) :: fsCols rest (ex.erase name)
            else ((unique_name name ex).1, DType.scalar) ::
              fsCols rest (unique_name name ex).2) = _
          rw [if_neg h]
        rw [hshape, hcount, hsum]
        have hsum2 : sumNodes (((unique_name name ex).1, DType.scalar) ::
            fsCols rest (unique_name name ex).2) =
            dnodes DType.scalar + sumNodes (fsCols rest (unique_name name ex).2) := by
          simp [sumNodes]
        rw [hsum2]
        have := ih (unique_name name ex).2
        omega
    | arr et =>
      have hcount : structColCount ((name, DType.arr et) :: rest) = structColCount rest := by
        simp [structColCount, List.countP_cons, DType.isStructT]
      have hsum : sumNodes ((name, DType.arr et) :: rest) =
          dnodes (DType.arr et) + sumNodes rest := by
        simp [sumNodes]
      by_cases h : name ∈ ex
      · have hshape : fsCols ((name, DType.arr et) :: rest) ex =
            (name, DType.arr et) :: fsCols rest (ex.erase name) := by
          show (if name ∈ ex then (name, DType.arr et) :: fsCols rest (ex.erase name)
            else ((unique_name name ex).1, DType.arr et) ::
              fsCols rest (unique_name name ex).2) = _
          rw [if_pos h]
        rw [hshape, hcount, hsum]
        have hsum2 : sumNodes ((name, DType.arr et) :: fsCols rest (ex.erase name)) =
            dnodes (DType.arr et) + sumNodes (fsCols rest (ex.erase name)) := by
          simp [sumNodes]
        rw [hsum2]
        have := ih (ex.erase name)
        omega
      · have hshape : fsCols ((name, DType.arr et) :: rest) ex =
            ((unique_name name ex).1, DType.arr et) :: fsCols rest (unique_name name ex).2 := by
          show (if name ∈ ex then (name, DType.arr et) :: fsCols rest (ex.erase name)
            else ((unique_name name ex).1, DType.arr et) ::
              fsCols rest (unique_name name ex).2) = _
          rw [if_neg h]
        rw [hshape, hcount, hsum]
        have hsum2 : sumNodes (((unique_name name ex).1, DType.arr et) ::
            fsCols rest (unique_name name ex).2) =
            dnodes (DType.arr et) + sumNodes (fsCols rest (unique_name name ex).2) := by
          simp [sumNodes]
        rw [hsum2]
        have := ih (unique_name name ex).2
        omega

theorem hasStruct_count_pos (F : Frame) (h : hasStructF F = true) :
    0 < structColCount F.cols := by
  unfold hasStructF at h
  rw [List.any_eq_true] at h
  obtain ⟨c, hc, hcs⟩ := h
  exact List.countP_pos_iff.mpr ⟨c, hc, hcs⟩

theorem flatten_structs_nodes_lt (F : Frame) (h : hasStructF F = true) :
    nodesF (flatten_structs F) < nodesF F := by
  have h' : (F.cols.any fun c => c.2.isStructT) = true := h
  unfold flatten_structs
  rw [if_pos h']
  show sumNodes (fsCols F.cols (F.cols.map Prod.fst)) < sumNodes F.cols
  have heq := fsCols_sumNodes F.cols (F.cols.map Prod.fst)
  have hpos := hasStruct_count_pos F h
  omega

theorem sumNodes_set :
    ∀ (cols : List (String × DType)) (k : Nat) (x : String × DType), k < cols.length →
    sumNodes (cols.set k x) + dnodes ((cols.getD k ("", DType.scalar)).2) =
      sumNodes cols + dnodes x.2 := by
  intro cols
  induction cols with
  | nil => intro k x h; simp at h
  | cons hd rest ih =>
    intro k x h
    cases k with
    | zero =>
      show sumNodes (x :: rest) + dnodes hd.2 = sumNodes (hd :: rest) + dnodes x.2
      simp [sumNodes]
      omega
    | succ k' =>
      have hlen : k' < rest.length := by simpa using h
      have := ih k' x hlen
      show sumNodes (hd :: rest.set k' x) + dnodes ((rest.getD k' ("", DType.scalar)).2) =
        sumNodes (hd :: rest) + dnodes x.2
      simp only [sumNodes, List.map_cons, List.sum_cons] at this ⊢
      omega

theorem find_arr_mem_names :
    ∀ (cols : List (String × DType)) (n : String),
    find_array_column_go cols = some n → n ∈ cols.map Prod.fst := by
  intro cols
  induction cols with
  | nil => intro n h; simp [find_array_column_go] at h
  | cons hd rest ih =>
    intro n h
    obtain ⟨n0, t0⟩ := hd
    by_cases ha : t0.isArrT = true
    · have : some n0 = some n := by simpa [find_array_column_go, ha] using h
      simp [Option.some.inj this]
    · have hrest : find_array_column_go rest = some n := by
        simpa [find_array_column_go, ha] using h
      simp [ih n hrest]

theorem find_arr_idx_of_nodup :
    ∀ (cols : List (String × DType)), (cols.map Prod.fst).Nodup →
    ∀ n, find_array_column_go cols = some n →
    ∃ k t, findNameIdx n cols = some k ∧ k < cols.length ∧
      cols.getD k ("", DType.scalar) = (n, DType.arr t) := by
  intro cols
  induction cols with
  | nil => intro _ n h; simp [find_array_column_go] at h
  | cons hd rest ih =>
    intro hnd n h
    obtain ⟨n0, t0⟩ := hd
    simp only [List.map_cons, List.nodup_cons] at hnd
    by_cases ha : t0.isArrT = true
    · have heq : some n0 = some n := by simpa [find_array_column_go, ha] using h
      have hn : n0 = n := Option.some.inj heq
      obtain ⟨t, ht⟩ : ∃ t, t0 = DType.arr t := by
        cases t0 with
        | arr t => exact ⟨t, rfl⟩
        | scalar => simp [DType.isArrT] at ha
        | struct fs => simp [DType.isArrT] at ha
      refine ⟨0, t, ?_, by simp, by simp [hn, ht]⟩
      show (if n0 = n then some 0 else (findNameIdx n rest).map (· + 1)) = some 0
      rw [if_pos hn]
    · have hrest : find_array_column_go rest = some n := by
        simpa [find_array_column_go, ha] using h
      have hmem : n ∈ rest.map Prod.fst := find_arr_mem_names rest n hrest
      have hne : n0 ≠ n := by
        intro he
        exact hnd.1 (he ▸ hmem)
      obtain ⟨k, t, hk1, hk2, hk3⟩ := ih hnd.2 n hrest
      refine ⟨k + 1, t, ?_, by simpa using hk2, by simpa using hk3⟩
      show (if n0 = n then some 0 else (findNameIdx n rest).map (· + 1)) = some (k + 1)
      rw [if_neg hne, hk1]
      rfl

theorem withColumn_explode_eq (F : Frame) (n : String) (k : Nat)
    (h : findNameIdx n F.cols = some k) :
    withColumn_explode F n =
      { cols := F.cols.set k (n,
          match (F.cols.getD k ("", DType.scalar)).2 with
          | DType.arr t => t
          | t => t),
        rows := concatMap (explode_row k) F.rows } := by
  unfold withColumn_explode
  rw [h]

theorem withColumn_explode_nodes_lt (F : Frame) (n : String)
    (hnd : (F.cols.map Prod.fst).Nodup) (hfa : find_array_column F = some n) :
    nodesF (withColumn_explode F n) < nodesF F := by
  obtain ⟨k, t, hk1, hk2, hk3⟩ := find_arr_idx_of_nodup F.cols hnd n hfa
  rw [withColumn_explode_eq F n k hk1, hk3]
  show sumNodes (F.cols.set k (n, t)) < sumNodes F.cols
  have hs := sumNodes_set F.cols k (n, t) hk2
  rw [hk3] at hs
  have harr : dnodes ((n, DType.arr t)).2 = 1 + dnodes t := rfl
  rw [harr] at hs
  have hx : dnodes ((n, t) : String × DType).2 = dnodes t := rfl
  rw [hx] at hs
  omega

theorem flatten_body_nodes_lt (F : Frame) (hnd : (F.cols.map Prod.fst).Nodup)
    (h : isFlatF F = false) : nodesF (flatten_body F) < nodesF F := by
  by_cases hs : hasStructF F = true
  · unfold flatten_body
    rw [if_pos hs]
    exact flatten_structs_nodes_lt F hs
  · have hs' : hasStructF F = false := by
      cases hval : hasStructF F
      · rfl
      · exact absurd hval hs
    obtain ⟨n, hn⟩ : ∃ n, find_array_column F = some n := by
      unfold isFlatF at h
      rw [hs'] at h
      cases hval : find_array_column F with
      | none => rw [hval] at h; simp at h
      | some n => exact ⟨n, rfl⟩
    unfold flatten_body
    rw [if_neg (by simp [hs']), hn]
    exact withColumn_explode_nodes_lt F n hnd hn

theorem nat_sum_zero : ∀ l : List Nat, l.sum = 0 → ∀ x ∈ l, x = 0 := by
  intro l
  induction l with
  | nil => intro _ x hx; simp at hx
  | cons a as ih =>
    intro h x hx
    rw [List.sum_cons] at h
    rcases List.mem_cons.mp hx with rfl | hx'
    · omega
    · exact ih (by omega) x hx'

theorem dnodes_eq_zero : ∀ t : DType, dnodes t = 0 → t = DType.scalar := by
  intro t h
  cases t with
  | scalar => rfl
  | arr t' => unfold dnodes at h; omega
  | struct fs => unfold dnodes at h; omega

theorem all_scalar_no_array :
    ∀ cols : List (String × DType), (∀ c ∈ cols, c.2 = DType.scalar) →
    find_array_column_go cols = none := by
  intro cols
  induction cols with
  | nil => intro _; rfl
  | cons hd rest ih =>
    intro h
    have hh : hd.2 = DType.scalar := h hd (by simp)
    obtain ⟨n0, t0⟩ := hd
    show (if t0.isArrT then some n0 else find_array_column_go rest) = none
    have ht0 : t0 = DType.scalar := hh
    rw [ht0]
    show find_array_column_go rest = none
    exact ih (fun c hc => h c (by simp [hc]))

theorem nodesF_zero_flat (F : Frame) (h : nodesF F = 0) : isFlatF F = true := by
  have hall : ∀ c ∈ F.cols, c.2 = DType.scalar := by
    intro c hc
    apply dnodes_eq_zero
    exact nat_sum_zero _ h _ (List.mem_map_of_mem _ hc)
  have hs : hasStructF F = false := by
    cases hval : hasStructF F
    · rfl
    · exfalso
      unfold hasStructF at hval
      rw [List.any_eq_true] at hval
      obtain ⟨c, hc, hcs⟩ := hval
      rw [hall c hc] at hcs
      simp [DType.isStructT] at hcs
  have ha : find_array_column F = none := all_scalar_no_array F.cols hall
  unfold isFlatF
  rw [hs, ha]
  rfl

theorem flat_within_nodes :
    ∀ (N : Nat) (F : Frame), nodesF F ≤ N →
    (∀ j, ((applyN F j).cols.map Prod.fst).Nodup) →
    isFlatF (applyN F (nodesF F)) = true := by
  intro N
  induction N with
  | zero =>
    intro F hN _
    have h0 : nodesF F = 0 := by omega
    rw [h0]
    exact nodesF_zero_flat F h0
  | succ N ih =>
    intro F hN hnd
    by_cases hf : isFlatF F = true
    · rw [applyN_flat_const F hf]
      exact hf
    · have hf' : isFlatF F = false := by
        cases hval : isFlatF F
        · rfl
        · exact absurd hval hf
      have hlt := flatten_body_nodes_lt F (hnd 0) hf'
      obtain ⟨m, hm⟩ : ∃ m, nodesF F = m + 1 := ⟨nodesF F - 1, by omega⟩
      rw [hm]
      show isFlatF (applyN (flatten_body F) m) = true
      have ihb := ih (flatten_body F) (by omega) (fun j => hnd (j + 1))
      have hle : nodesF (flatten_body F) ≤ m := by omega
      have hpad : applyN (flatten_body F) m = applyN (flatten_body F) (nodesF (flatten_body F)) := by
        rw [show m = nodesF (flatten_body F) + (m - nodesF (flatten_body F)) by omega,
          applyN_add, applyN_flat_const _ ihb]
      rw [hpad]
      exact ihb

/-- Claim C6 (amended): for every frame whose column names stay pairwise
distinct along the run, the loop reaches a frame with no struct and no
array columns within `S + A` iterations, where `S + A` (`nodesF`) is the
total number of composite — struct plus array — nodes in the schema; in
particular `flatten_go` invoked with any `max_iterations` of at least
`S + A` returns a flat frame.  (The claimed bound, maximum struct depth
`D` plus array count `A`, is too small: see the counterexample.) -/
theorem c6_termination_bound (F : Frame) (m : Nat)
    (hnd : ∀ j, ((applyN F j).cols.map Prod.fst).Nodup)
    (hm : nodesF F ≤ m) :
    isFlatF (applyN F (nodesF F)) = true ∧ isFlatF (flatten_go F m).1 = true := by
  have h1 := flat_within_nodes (nodesF F) F (le_refl _) hnd
  refine ⟨h1, ?_⟩
  apply flatten_go_flat_of_applyN
  have hpad : applyN F m = applyN F (nodesF F) := by
    rw [show m = nodesF F + (m - nodesF F) by omega, applyN_add, applyN_flat_const _ h1]
  rw [hpad]
  exact h1

/-- Counterexample to C6 as stated: `exFrameC6` has maximum struct depth
`D = 2` and `A = 2` array nodes, but after `D + A = 4` iterations — and
with `max_iterations = 4`, which the claim says suffices — the frame
still holds a composite column; flattening completes only after 5
(= `S + A`, the total composite-node count) iterations. -/
theorem c6_depth_bound_counterexample :
    maxStructDepthF exFrameC6 = 2 ∧
    arrayCountF exFrameC6 = 2 ∧
    isFlatF (applyN exFrameC6 (2 + 2)) = false ∧
    hasCompositeF (flatten_go exFrameC6 (2 + 2)).1 = true ∧
    hasCompositeF (flatten_df exFrameC6 (2 + 2)).1 = true ∧
    nodesF exFrameC6 = 5 ∧
    isFlatF (applyN exFrameC6 5) = true := by
  refine ⟨by decide, by decide, by decide, by decide, by decide, by decide, by decide⟩

/-- Witness for the amended C6 at a concrete frame: names stay distinct
along the run and the frame is flat after `nodesF = 2` iterations. -/
theorem c6_termination_bound_witness :
    nodesF exFrameC6w = 2 ∧
    isFlatF (applyN exFrameC6w (nodesF exFrameC6w)) = true ∧
    isFlatF (flatten_go exFrameC6w 2).1 = true := by
  have hflat2 : isFlatF (applyN exFrameC6w 2) = true := by decide
  have hnd : ∀ j, ((applyN exFrameC6w j).cols.map Prod.fst).Nodup := by
    intro j
    match j with
    | 0 => decide
    | 1 => decide
    | j + 2 =>
      have hconst : applyN exFrameC6w (j + 2) = applyN exFrameC6w 2 := by
        rw [show j + 2 = 2 + j by omega, applyN_add, applyN_flat_const _ hflat2]
      rw [hconst]
      decide
  have h := c6_termination_bound exFrameC6w 2 hnd (by decide)
  exact ⟨by decide, h.1, h.2⟩

end AmazonFlatten

